import Mathlib

set_option maxRecDepth 10000

/-!
Verification of the MYCIN inference engine (`mycin_inference_engine.py`).

A shallow embedding of the engine's data model and operations.  Certainty
factors are modelled as rationals (`ℚ`); Python scalar values (bool, number,
string) as the inductive `Scalar`; the Python `dict` fields as association
lists with Python's lookup/assignment semantics; a raised exception
(`ZeroDivisionError` in `combine_certainties`) as `none` in an `Option`
result, threaded through every caller exactly as an uncaught Python
exception would propagate.
-/

namespace Mycin

/-- A Python scalar value: boolean, number, or string. -/
inductive Scalar where
  | b (x : Bool)
  | num (x : ℚ)
  | s (x : String)
deriving DecidableEq

/-- Python `==` on scalars.  `bool` is a subclass of `int` in Python, so
`True == 1` and `False == 0`; values of unrelated types compare unequal. -/
def pyEq : Scalar → Scalar → Bool
  | .b x, .b y => x == y
  | .num x, .num y => decide (x = y)
  | .s x, .s y => x == y
  | .b x, .num y => decide ((if x then (1 : ℚ) else 0) = y)
  | .num x, .b y => decide (x = (if y then (1 : ℚ) else 0))
  | _, _ => false

/-- Digits-to-number accumulator for the decimal parser. -/
def natOfDigits (cs : List Char) : ℕ :=
  cs.foldl (fun n c => 10 * n + (c.toNat - 48)) 0

/-- Parse an unsigned decimal literal (`"12"`, `"3.5"`, `".5"`, `"2."`). -/
def parseUnsigned (cs : List Char) : Option ℚ :=
  let p := cs.span (fun c => c ≠ '.')
  match p.2 with
  | [] =>
      if p.1 ≠ [] ∧ p.1.all Char.isDigit then some (natOfDigits p.1) else none
  | _ :: fracPart =>
      if (p.1 ++ fracPart) ≠ [] ∧ p.1.all Char.isDigit ∧ fracPart.all Char.isDigit
        ∧ ¬ fracPart.contains '.' then
        some ((natOfDigits p.1 : ℚ) + (natOfDigits fracPart : ℚ) / (10 ^ fracPart.length))
      else none

/-- Models Python `float(x)` as used by the numeric comparison branches of
`evaluate_condition`: booleans coerce to `1`/`0`, numbers to themselves,
and a string to the decimal number it spells.  `none` models the
`ValueError`/`TypeError` that the source catches (treating the condition as
unsatisfied); exotic forms (exponents, infinities, whitespace) are out of
scope of this model and map to `none`. -/
def toNum : Scalar → Option ℚ
  | .b x => some (if x then 1 else 0)
  | .num x => some x
  | .s str =>
      match str.toList with
      | '-' :: rest => (parseUnsigned rest).map (fun q => -q)
      | '+' :: rest => parseUnsigned rest
      | cs => parseUnsigned cs

/-- `Fact` dataclass: a fact with a certainty factor. -/
structure Fact where
  parameter : String
  value : Scalar
  certainty : ℚ
  source_rules : List String
deriving DecidableEq

/-- `RuleCondition` dataclass from `mycin_rules.py`. -/
structure RuleCondition where
  parameter : String
  operator : String
  value : Scalar
deriving DecidableEq

/-- `Rule` dataclass from `mycin_rules.py`; the `conclusion` dict is an
ordered association list with distinct keys. -/
structure Rule where
  rule_id : String
  category : String
  conditions : List RuleCondition
  conclusion : List (String × Scalar)
  certainty_factor : ℚ
  description : String
deriving DecidableEq

/-- The engine's mutable state: `known_facts` is the Python dict mapping a
parameter name to a single `Fact`; `evaluated_rules` the Python set of rule
ids, modelled as a duplicate-free insertion-ordered list. -/
structure Engine where
  known_facts : List (String × Fact)
  evaluated_rules : List String
deriving DecidableEq

/-- The engine's optional `llm_question_answering_fn` callback: given a
question key and the patient data it returns `(answer, certainty)`, with
`none` for Python's `None` answer. -/
abbrev Oracle := Option (String → List (String × Scalar) → Option Scalar × ℚ)

/-- Patient data: an opaque string-keyed dict of scalars. -/
abbrev PatientData := List (String × Scalar)

/-- Python dict lookup (`d.get(k)`) on the fact store. -/
def dictGet : List (String × Fact) → String → Option Fact
  | [], _ => none
  | (k', v) :: rest, k => if k' = k then some v else dictGet rest k

/-- Python dict assignment (`d[k] = v`) on the fact store. -/
def dictSet : List (String × Fact) → String → Fact → List (String × Fact)
  | [], k, v => [(k, v)]
  | (k', v') :: rest, k, v =>
      if k' = k then (k, v) :: rest else (k', v') :: dictSet rest k v

/-- Python dict lookup on the patient-data dict (`param in patient_data`
followed by `patient_data[param]`). -/
def pdGet : PatientData → String → Option Scalar
  | [], _ => none
  | (k', v) :: rest, k => if k' = k then some v else pdGet rest k

/-- `MYCINInferenceEngine.combine_certainties`.  The third branch divides by
`1 - min(|cf1|, |cf2|)` with no guard; `none` models the
`ZeroDivisionError` Python raises when that denominator is zero. -/
def combine_certainties (cf1 cf2 : ℚ) : Option ℚ :=
  if 0 ≤ cf1 ∧ 0 ≤ cf2 then some (cf1 + cf2 * (1 - cf1))
  else if cf1 < 0 ∧ cf2 < 0 then some (cf1 + cf2 * (1 + cf1))
  else if 1 - min |cf1| |cf2| = 0 then none
  else some ((cf1 + cf2) / (1 - min |cf1| |cf2|))

/-- The `source_rules` list built from the optional `source_rule` argument:
`[source_rule] if source_rule else []`. -/
def srcList : Option String → List String
  | some r => [r]
  | none => []

/-- `MYCINInferenceEngine.set_fact`.  One fact per parameter: an update for
a parameter already present either OR-combines (same value), keeps the
higher-certainty fact (different value), or is dropped; a fresh parameter
stores the fact verbatim. -/
def set_fact (e : Engine) (parameter : String) (value : Scalar) (certainty : ℚ)
    (source_rule : Option String) : Option Engine :=
  match dictGet e.known_facts parameter with
  | some existing =>
      if pyEq existing.value value then
        match combine_certainties existing.certainty certainty with
        | none => none
        | some combined_cf =>
            let f : Fact :=
              ⟨parameter, value, combined_cf, existing.source_rules ++ srcList source_rule⟩
            some { e with known_facts := dictSet e.known_facts parameter f }
      else
        if existing.certainty < certainty then
          let f : Fact := ⟨parameter, value, certainty, srcList source_rule⟩
          some { e with known_facts := dictSet e.known_facts parameter f }
        else some e
  | none =>
      let f : Fact := ⟨parameter, value, certainty, srcList source_rule⟩
      some { e with known_facts := dictSet e.known_facts parameter f }

/-- `MYCINInferenceEngine.get_fact`. -/
def get_fact (e : Engine) (parameter : String) : Option Fact :=
  dictGet e.known_facts parameter

/-- `MYCINInferenceEngine.ask_llm_question` (tuple-returning callback form):
with no callback installed the answer is unknown, `(None, 0.0)`. -/
def ask_llm_question (oracle : Oracle) (question_key : String)
    (patient_data : PatientData) : Option Scalar × ℚ :=
  match oracle with
  | some f => f question_key patient_data
  | none => (none, 0)

/-- The operator dispatch inside `evaluate_condition`: string-tagged
operators; the numeric ones coerce both sides with `float(...)` and treat a
coercion failure as "not satisfied"; an unknown operator is unsatisfied. -/
def evalOperator (operator : String) (actual_value expected_value : Scalar) : Bool :=
  if operator = "is" then pyEq actual_value expected_value
  else if operator = "is_not" then !(pyEq actual_value expected_value)
  else if operator = "greater_than" then
    match toNum actual_value, toNum expected_value with
    | some a, some b => decide (b < a)
    | _, _ => false
  else if operator = "less_than" then
    match toNum actual_value, toNum expected_value with
    | some a, some b => decide (a < b)
    | _, _ => false
  else if operator = "greater_than_or_equal" then
    match toNum actual_value, toNum expected_value with
    | some a, some b => decide (b ≤ a)
    | _, _ => false
  else if operator = "less_than_or_equal" then
    match toNum actual_value, toNum expected_value with
    | some a, some b => decide (a ≤ b)
    | _, _ => false
  else false

/-- The tail of `evaluate_condition`: test the operator against the
resolved fact and return `(True, fact_certainty)` or `(False, 0.0)`,
alongside the engine state `e'`. -/
def finishCondition (condition : RuleCondition) (fact : Fact) (e' : Engine) :
    Option ((Bool × ℚ) × Engine) :=
  if evalOperator condition.operator fact.value condition.value then
    some ((true, fact.certainty), e')
  else some ((false, 0), e')

/-- `MYCINInferenceEngine.evaluate_condition`.  Resolution order: known
fact, then a value straight from `patient_data` (used at certainty `1.0`
and *not* written to the fact store), then the LLM callback (whose answer
*is* written via `set_fact`); no fact at all means `(False, 0.0)`.  The
result also carries the possibly-updated engine state. -/
def evaluate_condition (oracle : Oracle) (e : Engine) (condition : RuleCondition)
    (patient_data : PatientData) : Option ((Bool × ℚ) × Engine) :=
  match get_fact e condition.parameter with
  | some fact => finishCondition condition fact e
  | none =>
      match pdGet patient_data condition.parameter with
      | some actual_value => finishCondition condition ⟨condition.parameter, actual_value, 1, []⟩ e
      | none =>
          match ask_llm_question oracle condition.parameter patient_data with
          | (some answer, certainty) =>
              match set_fact e condition.parameter answer certainty none with
              | none => none
              | some e' => finishCondition condition ⟨condition.parameter, answer, certainty, []⟩ e'
          | (none, _) => some ((false, 0), e)

/-- Python's `min(cf for _, cf in condition_results) if condition_results
else 0.0`. -/
def pyMin : List ℚ → ℚ
  | [] => 0
  | x :: xs => xs.foldl min x

/-- The condition loop of `evaluate_rule`: evaluate each condition in
order, appending `(satisfied, certainty)` to `condition_results`; an
unsatisfied condition exits early with `(False, 0.0)`; if all are
satisfied the result is `(True, min certainty)`. -/
def evalCondsLoop (oracle : Oracle) (pd : PatientData) :
    Engine → List RuleCondition → List (Bool × ℚ) → Option ((Bool × ℚ) × Engine)
  | e, [], condition_results =>
      some ((true, pyMin (condition_results.map Prod.snd)), e)
  | e, condition :: rest, condition_results =>
      match evaluate_condition oracle e condition pd with
      | none => none
      | some ((satisfied, certainty), e') =>
          if satisfied then
            evalCondsLoop oracle pd e' rest (condition_results ++ [(satisfied, certainty)])
          else some ((false, 0), e')

/-- `MYCINInferenceEngine.evaluate_rule`: a rule already in
`evaluated_rules` is `(False, 0.0)` immediately; otherwise the condition
loop runs with an empty result list. -/
def evaluate_rule (oracle : Oracle) (e : Engine) (rule : Rule)
    (pd : PatientData) : Option ((Bool × ℚ) × Engine) :=
  if rule.rule_id ∈ e.evaluated_rules then some ((false, 0), e)
  else evalCondsLoop oracle pd e rule.conditions []

/-- Python `set.add` on the modelled `evaluated_rules` set. -/
def addId (l : List String) (x : String) : List String :=
  if x ∈ l then l else l ++ [x]

/-- The conclusion-writing loop of `apply_rule`: `set_fact` for every
`(key, value)` of the conclusion dict at the computed certainty, with the
rule id as provenance. -/
def applyConclusion : Engine → List (String × Scalar) → ℚ → String → Option Engine
  | e, [], _, _ => some e
  | e, (key, value) :: rest, conclusion_cf, rid =>
      match set_fact e key value conclusion_cf (some rid) with
      | none => none
      | some e' => applyConclusion e' rest conclusion_cf rid

/-- `MYCINInferenceEngine.apply_rule`: evaluate the rule; if its conditions
are met, write every conclusion pair at
`rule.certainty_factor * condition_cf` and add the rule id to
`evaluated_rules`; return whether the rule was applied, with the updated
state. -/
def apply_rule (oracle : Oracle) (e : Engine) (rule : Rule)
    (pd : PatientData) : Option (Bool × Engine) :=
  match evaluate_rule oracle e rule pd with
  | none => none
  | some ((conditions_met, condition_cf), e₁) =>
      if conditions_met then
        match applyConclusion e₁ rule.conclusion
            (rule.certainty_factor * condition_cf) rule.rule_id with
        | none => none
        | some e₂ =>
            some (true, { e₂ with evaluated_rules := addId e₂.evaluated_rules rule.rule_id })
      else some (false, e₁)

/-- `MYCINInferenceEngine._normalize_to_probs` (source name starts with an
underscore): clamp certainties at `0`; if the clamped values sum to `0`,
fall back to a uniform distribution over *all* candidate keys; otherwise
divide each clamped value by the clamped sum. -/
def normalize_to_probs {α : Type} (certainty_dict : List (α × ℚ)) : List (α × ℚ) :=
  if certainty_dict.isEmpty then []
  else
    let positive_cfs := certainty_dict.map (fun kv => (kv.1, max 0 kv.2))
    if positive_cfs.isEmpty ∨ (positive_cfs.map Prod.snd).sum = 0 then
      certainty_dict.map (fun kv => (kv.1, 1 / (certainty_dict.length : ℚ)))
    else
      positive_cfs.map (fun kv => (kv.1, kv.2 / (positive_cfs.map Prod.snd).sum))

/-- The fact-collection loop at the head of `get_diagnosis`
(`organisms[fact.value] = fact.certainty` for every fact whose parameter is
the goal; `get_diagnosis` instantiates this at `"identity"` and
`"infection_site"`). -/
def collect_facts (e : Engine) (goal : String) : List (Scalar × ℚ) :=
  (e.known_facts.filter (fun kv => kv.1 = goal)).map
    (fun kv => (kv.2.value, kv.2.certainty))

/-- The `organism_identity.probabilities` field of `get_diagnosis`. -/
def organism_probabilities (e : Engine) : List (Scalar × ℚ) :=
  normalize_to_probs (collect_facts e "identity")

/-- `combineOr` exactly as the specification document words it (for the
refinement comparison with `combine_certainties`); Lean's total division
stands in for the unguarded division of the spec text. -/
def combineOr_spec (cf1 cf2 : ℚ) : ℚ :=
  if 0 ≤ cf1 ∧ 0 ≤ cf2 then cf1 + cf2 - cf1 * cf2
  else if cf1 < 0 ∧ cf2 < 0 then cf1 + cf2 + cf1 * cf2
  else (cf1 + cf2) / (1 - min |cf1| |cf2|)

/-- Sequential successful evaluation of a list of conditions: every
condition in turn evaluates as satisfied, with the listed certainties, the
engine state threading from `e` to the final state. -/
inductive SeqEval (oracle : Oracle) (pd : PatientData) :
    Engine → List RuleCondition → List ℚ → Engine → Prop where
  | nil (e : Engine) : SeqEval oracle pd e [] [] e
  | cons {e : Engine} {c : RuleCondition} {cs : List RuleCondition} {cf : ℚ}
      {cfs : List ℚ} {e₁ e₂ : Engine}
      (hc : evaluate_condition oracle e c pd = some ((true, cf), e₁))
      (hrest : SeqEval oracle pd e₁ cs cfs e₂) :
      SeqEval oracle pd e (c :: cs) (cf :: cfs) e₂

/-! Concrete states and rules used by counterexamples and witnesses. -/

/-- An engine knowing `p = "a"` with full certainty. -/
def engP : Engine := ⟨[("p", ⟨"p", Scalar.s "a", 1, []⟩)], []⟩

/-- An engine knowing `p = "a"` with certainty `-1/2`. -/
def engNeg : Engine := ⟨[("p", ⟨"p", Scalar.s "a", -(1/2), []⟩)], []⟩

/-- An engine knowing `p = "a"` with certainty `1/10` (below the spec's
`0.2` firing threshold). -/
def engLow : Engine := ⟨[("p", ⟨"p", Scalar.s "a", 1/10, []⟩)], []⟩

/-- A rule concluding `q = "b"` from `p is "a"`, certainty factor `4/5`. -/
def ruleR1 : Rule :=
  ⟨"R1", "test", [⟨"p", "is", Scalar.s "a"⟩], [("q", Scalar.s "b")], 4/5, "p implies q"⟩

/-- A full-certainty rule concluding `q = "b"` from `p is "a"`. -/
def ruleLow : Rule :=
  ⟨"RLOW", "test", [⟨"p", "is", Scalar.s "a"⟩], [("q", Scalar.s "b")], 1, "low cf"⟩

/-- `engP` after `ruleR1` has fired once. -/
def engPFired : Engine :=
  ⟨[("p", ⟨"p", Scalar.s "a", 1, []⟩), ("q", ⟨"q", Scalar.s "b", 4/5, ["R1"]⟩)], ["R1"]⟩

/-- `engLow` after `ruleLow` has fired. -/
def engLowFired : Engine :=
  ⟨[("p", ⟨"p", Scalar.s "a", 1/10, []⟩), ("q", ⟨"q", Scalar.s "b", 1/10, ["RLOW"]⟩)], ["RLOW"]⟩

/-- `engP` right after `applyConclusion` but before the rule id is added. -/
def engPMid : Engine :=
  ⟨[("p", ⟨"p", Scalar.s "a", 1, []⟩), ("q", ⟨"q", Scalar.s "b", 4/5, ["R1"]⟩)], []⟩

/-- An engine knowing `p = "a"` with certainty `1/2`. -/
def engHalf : Engine := ⟨[("p", ⟨"p", Scalar.s "a", 1/2, []⟩)], []⟩

/-! ## Helper lemmas about the dict model and the state threading -/

theorem dictGet_dictSet_self (d : List (String × Fact)) (k : String) (f : Fact) :
    dictGet (dictSet d k f) k = some f := by
  induction d with
  | nil => simp [dictSet, dictGet]
  | cons kv rest ih =>
      obtain ⟨k', v'⟩ := kv
      by_cases h : k' = k
      · simp [dictSet, h, dictGet]
      · simp [dictSet, h, dictGet, ih]

theorem dictGet_dictSet_ne (d : List (String × Fact)) (k : String) (f : Fact)
    (q : String) (h : q ≠ k) : dictGet (dictSet d k f) q = dictGet d q := by
  have hkq : ¬ k = q := fun hq => h hq.symm
  induction d with
  | nil => simp [dictSet, dictGet, hkq]
  | cons kv rest ih =>
      obtain ⟨k', v'⟩ := kv
      by_cases hk : k' = k
      · subst hk
        simp [dictSet, dictGet, hkq]
      · by_cases hq : k' = q
        · simp [dictSet, hk, dictGet, hq, h]
        · simp [dictSet, hk, dictGet, hq, ih]

theorem dictSet_keys (d : List (String × Fact)) (k : String) (f : Fact) :
    (dictSet d k f).map Prod.fst =
      if k ∈ d.map Prod.fst then d.map Prod.fst else d.map Prod.fst ++ [k] := by
  induction d with
  | nil => simp [dictSet]
  | cons kv rest ih =>
      obtain ⟨k', v'⟩ := kv
      by_cases h : k' = k
      · subst h
        simp [dictSet]
      · have hkk : ¬ k = k' := fun hq => h hq.symm
        by_cases hmem : k ∈ rest.map Prod.fst
        · simp [dictSet, h, ih, hmem, hkk]
        · simp [dictSet, h, ih, hmem, hkk]

theorem dictSet_keys_nodup (d : List (String × Fact)) (k : String) (f : Fact)
    (h : (d.map Prod.fst).Nodup) : ((dictSet d k f).map Prod.fst).Nodup := by
  rw [dictSet_keys]
  by_cases hmem : k ∈ d.map Prod.fst
  · simpa [hmem] using h
  · simp only [hmem, if_false]
    refine List.Nodup.append h (List.nodup_singleton k) ?_
    intro a ha hb
    rw [List.mem_singleton] at hb
    subst hb
    exact hmem ha

theorem mem_addId_of_mem {l : List String} {x a : String} (h : a ∈ l) :
    a ∈ addId l x := by
  unfold addId
  split
  · exact h
  · exact List.mem_append_left _ h

theorem mem_addId_self (l : List String) (x : String) : x ∈ addId l x := by
  unfold addId
  split
  · assumption
  · exact List.mem_append_right _ (List.mem_singleton_self x)

theorem list_sum_map_div (l : List ℚ) (t : ℚ) :
    (l.map (fun x => x / t)).sum = l.sum / t := by
  induction l with
  | nil => simp
  | cons x xs ih => simp [ih, add_div]

theorem set_fact_evaluated_rules {e : Engine} {p : String} {v : Scalar} {c : ℚ}
    {src : Option String} {e' : Engine} (h : set_fact e p v c src = some e') :
    e'.evaluated_rules = e.evaluated_rules := by
  unfold set_fact at h
  split at h
  · split at h
    · split at h
      · cases h
      · injection h with h
        subst h
        rfl
    · split at h
      · injection h with h
        subst h
        rfl
      · injection h with h
        subst h
        rfl
  · injection h with h
    subst h
    rfl

theorem evaluate_condition_evaluated_rules {oracle : Oracle} {e : Engine}
    {cond : RuleCondition} {pd : PatientData} {r : Bool × ℚ} {e' : Engine}
    (h : evaluate_condition oracle e cond pd = some (r, e')) :
    e'.evaluated_rules = e.evaluated_rules := by
  unfold evaluate_condition finishCondition at h
  split at h
  · split at h <;> (injection h with h; injection h with _ h; subst h; rfl)
  · split at h
    · split at h <;> (injection h with h; injection h with _ h; subst h; rfl)
    · split at h
      · rename_i heq
        split at h
        · cases h
        · rename_i e₁ hset
          have := set_fact_evaluated_rules hset
          split at h <;>
            (injection h with h; injection h with _ h; subst h; exact this)
      · injection h with h
        injection h with _ h
        subst h
        rfl

theorem evalCondsLoop_evaluated_rules {oracle : Oracle} {pd : PatientData} :
    ∀ {cs : List RuleCondition} {e : Engine} {acc : List (Bool × ℚ)}
      {r : Bool × ℚ} {e' : Engine},
      evalCondsLoop oracle pd e cs acc = some (r, e') →
      e'.evaluated_rules = e.evaluated_rules := by
  intro cs
  induction cs with
  | nil =>
      intro e acc r e' h
      unfold evalCondsLoop at h
      injection h with h
      injection h with _ h
      subst h
      rfl
  | cons c rest ih =>
      intro e acc r e' h
      unfold evalCondsLoop at h
      cases hc : evaluate_condition oracle e c pd with
      | none => rw [hc] at h; cases h
      | some res =>
          obtain ⟨⟨sat, cfc⟩, e₁⟩ := res
          rw [hc] at h
          have he₁ := evaluate_condition_evaluated_rules hc
          cases sat with
          | true =>
              simp only [if_true] at h
              exact (ih h).trans he₁
          | false =>
              simp only [Bool.false_eq_true, if_false] at h
              injection h with h
              injection h with _ h
              subst h
              exact he₁

theorem applyConclusion_evaluated_rules :
    ∀ {e : Engine} {l : List (String × Scalar)} {cf : ℚ} {rid : String} {e' : Engine},
      applyConclusion e l cf rid = some e' →
      e'.evaluated_rules = e.evaluated_rules := by
  intro e l
  induction l generalizing e with
  | nil =>
      intro cf rid e' h
      unfold applyConclusion at h
      injection h with h
      subst h
      rfl
  | cons kv rest ih =>
      intro cf rid e' h
      obtain ⟨key, value⟩ := kv
      unfold applyConclusion at h
      cases hs : set_fact e key value cf (some rid) with
      | none => rw [hs] at h; cases h
      | some e₁ =>
          rw [hs] at h
          exact (ih h).trans (set_fact_evaluated_rules hs)

theorem SeqEval_nil_inv {oracle : Oracle} {pd : PatientData} {e : Engine}
    {cfs : List ℚ} {e' : Engine} (h : SeqEval oracle pd e [] cfs e') :
    cfs = [] ∧ e' = e := by
  cases h
  exact ⟨rfl, rfl⟩

theorem SeqEval_cons_inv {oracle : Oracle} {pd : PatientData} {e : Engine}
    {c : RuleCondition} {cs : List RuleCondition} {cfs : List ℚ} {e' : Engine}
    (h : SeqEval oracle pd e (c :: cs) cfs e') :
    ∃ cf cfs' e₁, cfs = cf :: cfs' ∧
      evaluate_condition oracle e c pd = some ((true, cf), e₁) ∧
      SeqEval oracle pd e₁ cs cfs' e' := by
  cases h with
  | cons hc hrest => exact ⟨_, _, _, rfl, hc, hrest⟩

theorem evalCondsLoop_true_iff (oracle : Oracle) (pd : PatientData) :
    ∀ (cs : List RuleCondition) (e : Engine) (acc : List (Bool × ℚ))
      (cf : ℚ) (e' : Engine),
      evalCondsLoop oracle pd e cs acc = some ((true, cf), e') ↔
        ∃ cfs, SeqEval oracle pd e cs cfs e' ∧
          cf = pyMin (acc.map Prod.snd ++ cfs) := by
  intro cs
  induction cs with
  | nil =>
      intro e acc cf e'
      constructor
      · intro h
        unfold evalCondsLoop at h
        injection h with h
        injection h with h he
        injection h with _ hcf
        subst he
        exact ⟨[], SeqEval.nil e, by simp [hcf.symm]⟩
      · rintro ⟨cfs, hseq, hcf⟩
        obtain ⟨rfl, rfl⟩ := SeqEval_nil_inv hseq
        simp only [evalCondsLoop]
        rw [hcf]
        simp
  | cons c rest ih =>
      intro e acc cf e'
      constructor
      · intro h
        unfold evalCondsLoop at h
        cases hc : evaluate_condition oracle e c pd with
        | none => rw [hc] at h; cases h
        | some res =>
            obtain ⟨⟨sat, cfc⟩, e₁⟩ := res
            rw [hc] at h
            cases sat with
            | true =>
                simp only [if_true] at h
                obtain ⟨cfs, hseq, hcf⟩ := (ih e₁ (acc ++ [(true, cfc)]) cf e').mp h
                refine ⟨cfc :: cfs, SeqEval.cons hc hseq, ?_⟩
                simpa [List.map_append] using hcf
            | false =>
                simp only [Bool.false_eq_true, if_false] at h
                injection h with h
                injection h with h _
                injection h with h _
                cases h
      · rintro ⟨cfs, hseq, hcf⟩
        obtain ⟨cfc, cfs', e₁, rfl, hc, hrest⟩ := SeqEval_cons_inv hseq
        unfold evalCondsLoop
        rw [hc]
        simp only [if_true]
        exact (ih e₁ (acc ++ [(true, cfc)]) cf e').mpr
          ⟨cfs', hrest, by simpa [List.map_append] using hcf⟩

theorem evalCondsLoop_false_inv (oracle : Oracle) (pd : PatientData) :
    ∀ (cs : List RuleCondition) (e : Engine) (acc : List (Bool × ℚ))
      (z : ℚ) (e₁ : Engine),
      evalCondsLoop oracle pd e cs acc = some ((false, z), e₁) →
        z = 0 ∧ ∃ pre c rest cfs e₀ cfc, cs = pre ++ c :: rest ∧
          SeqEval oracle pd e pre cfs e₀ ∧
          evaluate_condition oracle e₀ c pd = some ((false, cfc), e₁) := by
  intro cs
  induction cs with
  | nil =>
      intro e acc z e₁ h
      unfold evalCondsLoop at h
      injection h with h
      injection h with h _
      injection h with h _
      cases h
  | cons c rest ih =>
      intro e acc z e₁ h
      unfold evalCondsLoop at h
      cases hc : evaluate_condition oracle e c pd with
      | none => rw [hc] at h; cases h
      | some res =>
          obtain ⟨⟨sat, cfc⟩, e'⟩ := res
          rw [hc] at h
          cases sat with
          | true =>
              simp only [if_true] at h
              obtain ⟨hz, pre, c', rest', cfs, e₀, cfc', hcs, hseq, hcond⟩ :=
                ih e' (acc ++ [(true, cfc)]) z e₁ h
              exact ⟨hz, c :: pre, c', rest', cfc :: cfs, e₀, cfc',
                by rw [hcs]; rfl, SeqEval.cons hc hseq, hcond⟩
          | false =>
              simp only [Bool.false_eq_true, if_false] at h
              injection h with h
              injection h with hp he
              injection hp with _ hz
              subst he
              exact ⟨hz.symm, [], c, rest, [], e, cfc, rfl, SeqEval.nil e, hc⟩

/-! ## Claim theorems -/

/-- C1: on `[-1,1] × [-1,1]`, excluding the opposite-sign pairs with
`min(|cf1|,|cf2|) = 1`, `combine_certainties` returns (never raises)
exactly the spec's `combineOr`: `cf1 + cf2 - cf1*cf2` for two nonnegative
inputs, `cf1 + cf2 + cf1*cf2` for two negative inputs, and
`(cf1 + cf2) / (1 - min(|cf1|,|cf2|))` for opposite signs. -/
theorem combine_certainties_refines_combineOr (cf1 cf2 : ℚ)
    (h1 : -1 ≤ cf1 ∧ cf1 ≤ 1) (h2 : -1 ≤ cf2 ∧ cf2 ≤ 1)
    (hnd : ¬ (((0 ≤ cf1 ∧ cf2 < 0) ∨ (cf1 < 0 ∧ 0 ≤ cf2)) ∧ min |cf1| |cf2| = 1)) :
    combine_certainties cf1 cf2 = some (combineOr_spec cf1 cf2) := by
  unfold combine_certainties combineOr_spec
  by_cases hA : 0 ≤ cf1 ∧ 0 ≤ cf2
  · simp only [if_pos hA]
    congr 1
    ring
  · by_cases hB : cf1 < 0 ∧ cf2 < 0
    · simp only [if_neg hA, if_pos hB]
      congr 1
      ring
    · have hopp : (0 ≤ cf1 ∧ cf2 < 0) ∨ (cf1 < 0 ∧ 0 ≤ cf2) := by
        rcases le_or_lt 0 cf1 with hp | hn
        · exact Or.inl ⟨hp, lt_of_not_le fun hc => hA ⟨hp, hc⟩⟩
        · refine Or.inr ⟨hn, ?_⟩
          by_contra hc
          push_neg at hc
          exact hB ⟨hn, hc⟩
      have hmin : ¬ (1 - min |cf1| |cf2| = 0) := by
        intro h0
        exact hnd ⟨hopp, by linarith⟩
      simp [hA, hB, hmin]

theorem combine_certainties_refines_combineOr_witness :
    ((-1 : ℚ) ≤ 1/2 ∧ (1/2 : ℚ) ≤ 1) ∧ ((-1 : ℚ) ≤ -(1/2) ∧ (-(1/2) : ℚ) ≤ 1) ∧
    combine_certainties (1/2) (-(1/2)) = some (combineOr_spec (1/2) (-(1/2))) :=
  ⟨by norm_num, by norm_num,
    combine_certainties_refines_combineOr (1/2) (-(1/2)) (by norm_num) (by norm_num)
      (by with_unfolding_all decide)⟩

/-- C7 counterexample: at the degenerate opposite-sign pairs `(1, -1)` and
`(-1, 1)` the code divides by zero (`none` models the uncaught
`ZeroDivisionError`) instead of returning `0`. -/
theorem combine_certainties_degenerate_raises_cex :
    combine_certainties 1 (-1) = none ∧ combine_certainties (-1) 1 = none := by
  with_unfolding_all decide

/-- C7 (amended): for inputs in `[-1,1]`, `combine_certainties` returns a
result (raising no error) that again lies in `[-1,1]` — except at the two
degenerate opposite-sign pairs `(1,-1)` and `(-1,1)`, where it raises a
`ZeroDivisionError` rather than returning `0`. -/
theorem combine_certainties_range (cf1 cf2 : ℚ)
    (h1l : -1 ≤ cf1) (h1u : cf1 ≤ 1) (h2l : -1 ≤ cf2) (h2u : cf2 ≤ 1)
    (hnd : ¬ ((cf1 = 1 ∧ cf2 = -1) ∨ (cf1 = -1 ∧ cf2 = 1))) :
    ∃ r, combine_certainties cf1 cf2 = some r ∧ -1 ≤ r ∧ r ≤ 1 := by
  unfold combine_certainties
  by_cases hA : 0 ≤ cf1 ∧ 0 ≤ cf2
  · refine ⟨cf1 + cf2 * (1 - cf1), by simp [hA], ?_, ?_⟩
    · nlinarith [hA.1, hA.2]
    · nlinarith [hA.1, hA.2]
  · by_cases hB : cf1 < 0 ∧ cf2 < 0
    · refine ⟨cf1 + cf2 * (1 + cf1), by simp [hA, hB], ?_, ?_⟩
      · nlinarith [hB.1, hB.2]
      · nlinarith [hB.1, hB.2]
    · have hopp : (0 ≤ cf1 ∧ cf2 < 0) ∨ (cf1 < 0 ∧ 0 ≤ cf2) := by
        rcases le_or_lt 0 cf1 with hp | hn
        · exact Or.inl ⟨hp, lt_of_not_le fun hc => hA ⟨hp, hc⟩⟩
        · refine Or.inr ⟨hn, ?_⟩
          by_contra hc
          push_neg at hc
          exact hB ⟨hn, hc⟩
      rcases hopp with ⟨hp, hn⟩ | ⟨hn, hp⟩
      · have ha1 : |cf1| = cf1 := abs_of_nonneg hp
        have ha2 : |cf2| = -cf2 := abs_of_neg hn
        have hm1 : min |cf1| |cf2| ≤ cf1 := by rw [ha1, ha2]; exact min_le_left _ _
        have hm2 : min |cf1| |cf2| ≤ -cf2 := by rw [ha1, ha2]; exact min_le_right _ _
        have hmlt : min |cf1| |cf2| < 1 := by
          rcases lt_or_eq_of_le (le_trans hm1 h1u) with h | h
          · exact h
          · exfalso
            have hc1 : cf1 = 1 := le_antisymm h1u (h ▸ hm1)
            have hc2 : cf2 = -1 := le_antisymm (by linarith [h ▸ hm2]) h2l
            exact hnd (Or.inl ⟨hc1, hc2⟩)
        have hden : (0 : ℚ) < 1 - min |cf1| |cf2| := by linarith
        refine ⟨(cf1 + cf2) / (1 - min |cf1| |cf2|),
          by simp [hA, hB, ne_of_gt hden], ?_, ?_⟩
        · rw [le_div_iff₀ hden]
          linarith
        · rw [div_le_one hden]
          linarith
      · have ha1 : |cf1| = -cf1 := abs_of_neg hn
        have ha2 : |cf2| = cf2 := abs_of_nonneg hp
        have hm1 : min |cf1| |cf2| ≤ -cf1 := by rw [ha1, ha2]; exact min_le_left _ _
        have hm2 : min |cf1| |cf2| ≤ cf2 := by rw [ha1, ha2]; exact min_le_right _ _
        have hmlt : min |cf1| |cf2| < 1 := by
          rcases lt_or_eq_of_le (le_trans hm2 h2u) with h | h
          · exact h
          · exfalso
            have hc2 : cf2 = 1 := le_antisymm h2u (h ▸ hm2)
            have hc1 : cf1 = -1 := le_antisymm (by linarith [h ▸ hm1]) h1l
            exact hnd (Or.inr ⟨hc1, hc2⟩)
        have hden : (0 : ℚ) < 1 - min |cf1| |cf2| := by linarith
        refine ⟨(cf1 + cf2) / (1 - min |cf1| |cf2|),
          by simp [hA, hB, ne_of_gt hden], ?_, ?_⟩
        · rw [le_div_iff₀ hden]
          linarith
        · rw [div_le_one hden]
          linarith

theorem combine_certainties_range_witness :
    ((-1 : ℚ) ≤ 1/2 ∧ (1/2 : ℚ) ≤ 1 ∧ (-1 : ℚ) ≤ -1 ∧ (-1 : ℚ) ≤ 1) ∧
    ∃ r, combine_certainties (1/2) (-1) = some r ∧ -1 ≤ r ∧ r ≤ 1 :=
  ⟨by norm_num,
    combine_certainties_range (1/2) (-1) (by norm_num) (by norm_num)
      (by norm_num) (by norm_num) (by norm_num)⟩

/-- C8: `combine_certainties` is commutative on `[-1,1] × [-1,1]` wherever
it is defined (and the raising cases agree as well). -/
theorem combine_certainties_comm (a b : ℚ)
    (ha : -1 ≤ a ∧ a ≤ 1) (hb : -1 ≤ b ∧ b ≤ 1) :
    combine_certainties a b = combine_certainties b a := by
  unfold combine_certainties
  by_cases hA : 0 ≤ a
  · by_cases hB : 0 ≤ b
    · simp only [if_pos (And.intro hA hB), if_pos (And.intro hB hA)]
      congr 1
      ring
    · have hb' : b < 0 := lt_of_not_le hB
      have h1 : ¬ (0 ≤ a ∧ 0 ≤ b) := fun h => hB h.2
      have h2 : ¬ (a < 0 ∧ b < 0) := fun h => absurd hA (not_le_of_lt h.1)
      have h3 : ¬ (0 ≤ b ∧ 0 ≤ a) := fun h => hB h.1
      have h4 : ¬ (b < 0 ∧ a < 0) := fun h => absurd hA (not_le_of_lt h.2)
      simp only [h1, h2, h3, h4, if_false]
      rw [min_comm |b| |a|, add_comm b a]
  · have ha' : a < 0 := lt_of_not_le hA
    by_cases hB : 0 ≤ b
    · have h1 : ¬ (0 ≤ a ∧ 0 ≤ b) := fun h => hA h.1
      have h2 : ¬ (a < 0 ∧ b < 0) := fun h => absurd hB (not_le_of_lt h.2)
      have h3 : ¬ (0 ≤ b ∧ 0 ≤ a) := fun h => hA h.2
      have h4 : ¬ (b < 0 ∧ a < 0) := fun h => absurd hB (not_le_of_lt h.1)
      simp only [h1, h2, h3, h4, if_false]
      rw [min_comm |b| |a|, add_comm b a]
    · have hb' : b < 0 := lt_of_not_le hB
      have h1 : ¬ (0 ≤ a ∧ 0 ≤ b) := fun h => hA h.1
      have h3 : ¬ (0 ≤ b ∧ 0 ≤ a) := fun h => hB h.1
      simp only [if_neg h1, if_neg h3, if_pos (And.intro ha' hb'),
        if_pos (And.intro hb' ha')]
      congr 1
      ring

theorem combine_certainties_comm_witness :
    ((-1 : ℚ) ≤ 1/2 ∧ (1/2 : ℚ) ≤ 1) ∧ ((-1 : ℚ) ≤ -(1/3) ∧ (-(1/3) : ℚ) ≤ 1) ∧
    combine_certainties (1/2) (-(1/3)) = combine_certainties (-(1/3)) (1/2) :=
  ⟨by norm_num, by norm_num,
    combine_certainties_comm (1/2) (-(1/3)) (by norm_num) (by norm_num)⟩

/-- C2 counterexample: `ruleLow`'s sole condition evaluates with certainty
`1/10 ≤ 0.2`, yet the rule fires and a Fact for its conclusion is created
(there is no `0.2` firing threshold in the code). -/
theorem rule_fires_below_threshold_cex :
    evaluate_condition none engLow ⟨"p", "is", Scalar.s "a"⟩ [] =
      some ((true, 1/10), engLow) ∧
    ((1 : ℚ)/10 ≤ 1/5) ∧
    apply_rule none engLow ruleLow [] = some (true, engLowFired) ∧
    get_fact engLowFired "q" = some ⟨"q", Scalar.s "b", 1/10, ["RLOW"]⟩ := by
  with_unfolding_all decide

/-- C2 (amended): for a rule not yet in `evaluated_rules`, `apply_rule`
fires exactly when every condition in order evaluates as *satisfied*
(operator truth, with no threshold on the certainty value); it then passes
every `(parameter, value)` of the conclusion to `set_fact` at certainty
`rule.certainty_factor * min(condition certainties)` and records the rule
id.  With any condition unsatisfied, the rule fails at the first such
condition (the remaining ones are not evaluated) and the conclusion-writing
step is skipped entirely. -/
theorem apply_rule_firing_characterization (oracle : Oracle) (pd : PatientData)
    (e : Engine) (rule : Rule) (hmem : rule.rule_id ∉ e.evaluated_rules) :
    (∀ e₂, apply_rule oracle e rule pd = some (true, e₂) ↔
      ∃ cfs e₁ e₃, SeqEval oracle pd e rule.conditions cfs e₁ ∧
        applyConclusion e₁ rule.conclusion (rule.certainty_factor * pyMin cfs)
          rule.rule_id = some e₃ ∧
        e₂ = { e₃ with evaluated_rules := addId e₃.evaluated_rules rule.rule_id }) ∧
    (∀ e₁, apply_rule oracle e rule pd = some (false, e₁) →
      ∃ pre c rest cfs e₀ cfc, rule.conditions = pre ++ c :: rest ∧
        SeqEval oracle pd e pre cfs e₀ ∧
        evaluate_condition oracle e₀ c pd = some ((false, cfc), e₁)) := by
  have hev : evaluate_rule oracle e rule pd =
      evalCondsLoop oracle pd e rule.conditions [] := by
    unfold evaluate_rule
    rw [if_neg hmem]
  constructor
  · intro e₂
    constructor
    · intro h
      unfold apply_rule at h
      rw [hev] at h
      cases hL : evalCondsLoop oracle pd e rule.conditions [] with
      | none => rw [hL] at h; cases h
      | some res =>
          obtain ⟨⟨met, cf⟩, e₁⟩ := res
          rw [hL] at h
          cases met with
          | false =>
              simp only [Bool.false_eq_true, if_false] at h
              injection h with h
              injection h with h _
              cases h
          | true =>
              simp only [if_true] at h
              cases hA : applyConclusion e₁ rule.conclusion
                  (rule.certainty_factor * cf) rule.rule_id with
              | none => rw [hA] at h; cases h
              | some e₃ =>
                  rw [hA] at h
                  injection h with h
                  injection h with _ h
                  obtain ⟨cfs, hseq, hcf⟩ :=
                    (evalCondsLoop_true_iff oracle pd rule.conditions e [] cf e₁).mp hL
                  simp only [List.map_nil, List.nil_append] at hcf
                  subst hcf
                  exact ⟨cfs, e₁, e₃, hseq, hA, h.symm⟩
    · rintro ⟨cfs, e₁, e₃, hseq, hA, rfl⟩
      unfold apply_rule
      rw [hev]
      have hL : evalCondsLoop oracle pd e rule.conditions [] =
          some ((true, pyMin cfs), e₁) :=
        (evalCondsLoop_true_iff oracle pd rule.conditions e [] (pyMin cfs) e₁).mpr
          ⟨cfs, hseq, by simp⟩
      rw [hL]
      simp only [if_true]
      rw [hA]
  · intro e₁ h
    unfold apply_rule at h
    rw [hev] at h
    cases hL : evalCondsLoop oracle pd e rule.conditions [] with
    | none => rw [hL] at h; cases h
    | some res =>
        obtain ⟨⟨met, cf⟩, e₁'⟩ := res
        rw [hL] at h
        cases met with
        | true =>
            simp only [if_true] at h
            cases hA : applyConclusion e₁' rule.conclusion
                (rule.certainty_factor * cf) rule.rule_id with
            | none => rw [hA] at h; cases h
            | some e₃ =>
                rw [hA] at h
                injection h with h
                injection h with h _
                cases h
        | false =>
            simp only [Bool.false_eq_true, if_false] at h
            injection h with h
            injection h with _ he
            subst he
            exact (evalCondsLoop_false_inv oracle pd rule.conditions e [] cf _ hL).2

theorem apply_rule_firing_characterization_witness :
    ("R1" ∉ engP.evaluated_rules) ∧
    apply_rule none engP ruleR1 [] = some (true, engPFired) :=
  ⟨by with_unfolding_all decide,
    ((apply_rule_firing_characterization none [] engP ruleR1
        (by with_unfolding_all decide)).1 engPFired).mpr
      ⟨[1], engP, engPMid,
        SeqEval.cons (by with_unfolding_all decide) (SeqEval.nil engP),
        by with_unfolding_all decide, by with_unfolding_all decide⟩⟩

/-- C5 counterexample: after `ruleR1` fires once, its id stays in
`evaluated_rules` forever (nothing is ever removed); a second
`apply_rule` on the very same engine returns `False` and changes nothing,
even though the rule's condition still evaluates as satisfied — the guard
is a global memo of fired rules, not a recursion-path trace that is
cleared when evaluation completes. -/
theorem fired_rule_blocked_cex :
    apply_rule none engP ruleR1 [] = some (true, engPFired) ∧
    apply_rule none engPFired ruleR1 [] = some (false, engPFired) ∧
    evaluate_condition none engPFired ⟨"p", "is", Scalar.s "a"⟩ [] =
      some ((true, 1), engPFired) ∧
    "R1" ∈ engPFired.evaluated_rules := by
  with_unfolding_all decide

/-- C5 (amended): `evaluated_rules` only ever grows — a completed rule
evaluation never removes the rule's id.  A rule that fires has its id
recorded, and any rule whose id is already recorded is blocked: evaluating
it again returns `False` with the engine unchanged, so a rule can fire at
most once per run (rules that failed are not recorded and stay
eligible). -/
theorem evaluated_rules_monotone_memo (oracle : Oracle) (pd : PatientData)
    (e : Engine) (rule : Rule) (b : Bool) (e' : Engine)
    (h : apply_rule oracle e rule pd = some (b, e')) :
    (∀ r, r ∈ e.evaluated_rules → r ∈ e'.evaluated_rules) ∧
    (b = true → rule.rule_id ∈ e'.evaluated_rules) ∧
    (rule.rule_id ∈ e.evaluated_rules → b = false ∧ e' = e) := by
  unfold apply_rule at h
  by_cases hm : rule.rule_id ∈ e.evaluated_rules
  · have hev : evaluate_rule oracle e rule pd = some ((false, 0), e) := by
      unfold evaluate_rule
      rw [if_pos hm]
    rw [hev] at h
    simp only [Bool.false_eq_true, if_false] at h
    injection h with h
    injection h with hb he
    subst he
    subst hb
    exact ⟨fun r hr => hr, fun ht => absurd ht Bool.false_ne_true,
      fun _ => ⟨rfl, rfl⟩⟩
  · have hev : evaluate_rule oracle e rule pd =
        evalCondsLoop oracle pd e rule.conditions [] := by
      unfold evaluate_rule
      rw [if_neg hm]
    rw [hev] at h
    cases hL : evalCondsLoop oracle pd e rule.conditions [] with
    | none => rw [hL] at h; cases h
    | some res =>
        obtain ⟨⟨met, cf⟩, e₁⟩ := res
        rw [hL] at h
        have he₁ : e₁.evaluated_rules = e.evaluated_rules :=
          evalCondsLoop_evaluated_rules hL
        cases met with
        | false =>
            simp only [Bool.false_eq_true, if_false] at h
            injection h with h
            injection h with hb he
            subst he
            subst hb
            exact ⟨fun r hr => by rw [he₁]; exact hr,
              fun ht => absurd ht Bool.false_ne_true, fun habs => absurd habs hm⟩
        | true =>
            simp only [if_true] at h
            cases hA : applyConclusion e₁ rule.conclusion
                (rule.certainty_factor * cf) rule.rule_id with
            | none => rw [hA] at h; cases h
            | some e₃ =>
                rw [hA] at h
                injection h with h
                injection h with hb he
                subst he
                subst hb
                have he₃ : e₃.evaluated_rules = e.evaluated_rules :=
                  (applyConclusion_evaluated_rules hA).trans he₁
                refine ⟨fun r hr => ?_, fun _ => ?_, fun habs => absurd habs hm⟩
                · exact mem_addId_of_mem (by rw [he₃]; exact hr)
                · exact mem_addId_self _ _

theorem evaluated_rules_monotone_memo_witness :
    (apply_rule none engP ruleR1 [] = some (true, engPFired)) ∧
    "R1" ∈ engPFired.evaluated_rules :=
  ⟨by with_unfolding_all decide,
    (evaluated_rules_monotone_memo none [] engP ruleR1 true engPFired
      (by with_unfolding_all decide)).2.1 rfl⟩

/-- C3 counterexample: an update of magnitude `1/2000 < 0.001` is *not*
dropped — `set_fact` has no negligibility epsilon and creates the Fact. -/
theorem set_fact_ignores_epsilon_cex :
    (|(1 : ℚ)/2000| < 1/1000) ∧
    set_fact ⟨[], []⟩ "p" (Scalar.s "a") (1/2000) none =
      some ⟨[("p", ⟨"p", Scalar.s "a", 1/2000, []⟩)], []⟩ := by
  with_unfolding_all decide

/-- C3 (amended): `set_fact` applies no epsilon threshold — every call is
processed.  With no existing fact for the parameter it creates a Fact whose
certainty is exactly the input and whose provenance is the given source
rule, leaving every other parameter (and `evaluated_rules`) untouched; with
an existing fact of (Python-)equal value it replaces the certainty by
`combine_certainties(old, new)` — propagating that function's
`ZeroDivisionError` when the combination is degenerate — stores the new
value object, and appends the provenance. -/
theorem set_fact_update_characterization (e : Engine) (p : String) (v : Scalar)
    (c : ℚ) (src : Option String) :
    (get_fact e p = none →
      ∃ e', set_fact e p v c src = some e' ∧
        get_fact e' p = some ⟨p, v, c, srcList src⟩ ∧
        (∀ q, q ≠ p → get_fact e' q = get_fact e q) ∧
        e'.evaluated_rules = e.evaluated_rules) ∧
    (∀ f, get_fact e p = some f → pyEq f.value v = true →
      (combine_certainties f.certainty c = none → set_fact e p v c src = none) ∧
      (∀ cc, combine_certainties f.certainty c = some cc →
        ∃ e', set_fact e p v c src = some e' ∧
          get_fact e' p = some ⟨p, v, cc, f.source_rules ++ srcList src⟩ ∧
          (∀ q, q ≠ p → get_fact e' q = get_fact e q) ∧
          e'.evaluated_rules = e.evaluated_rules)) := by
  constructor
  · intro h
    unfold get_fact at h
    refine ⟨{ e with known_facts := dictSet e.known_facts p ⟨p, v, c, srcList src⟩ },
      ?_, ?_, ?_, rfl⟩
    · unfold set_fact
      rw [h]
    · exact dictGet_dictSet_self _ _ _
    · intro q hq
      exact dictGet_dictSet_ne _ _ _ _ hq
  · intro f hf hv
    unfold get_fact at hf
    constructor
    · intro hc
      unfold set_fact
      rw [hf]
      dsimp only
      rw [if_pos hv, hc]
    · intro cc hcc
      refine ⟨Engine.mk
          (dictSet e.known_facts p ⟨p, v, cc, f.source_rules ++ srcList src⟩)
          e.evaluated_rules, ?_, ?_, ?_, rfl⟩
      · unfold set_fact
        rw [hf]
        dsimp only
        rw [if_pos hv, hcc]
      · exact dictGet_dictSet_self _ _ _
      · intro q hq
        exact dictGet_dictSet_ne _ _ _ _ hq

theorem set_fact_update_characterization_witness :
    (get_fact ⟨[], []⟩ "p" = none) ∧
    ∃ e', set_fact ⟨[], []⟩ "p" (Scalar.s "a") (1/2) none = some e' ∧
      get_fact e' "p" = some ⟨"p", Scalar.s "a", 1/2, srcList none⟩ ∧
      (∀ q, q ≠ "p" → get_fact e' q = get_fact ⟨[], []⟩ q) ∧
      e'.evaluated_rules = (Engine.mk [] []).evaluated_rules :=
  ⟨rfl,
    (set_fact_update_characterization ⟨[], []⟩ "p" (Scalar.s "a") (1/2) none).1 rfl⟩

/-- C10: `known_facts` maps each parameter to a single Fact — `set_fact`
preserves key-uniqueness of the store — and an update whose value differs
from the stored fact's value either replaces the stored Fact entirely
(exactly when the new certainty is strictly greater than the stored one:
value, certainty and provenance are all overwritten) or leaves the engine
completely unchanged, discarding the new evidence — ties included. -/
theorem set_fact_single_fact_per_parameter :
    (∀ (e : Engine) (p : String) (v : Scalar) (c : ℚ) (src : Option String)
      (e' : Engine), (e.known_facts.map Prod.fst).Nodup →
        set_fact e p v c src = some e' →
        (e'.known_facts.map Prod.fst).Nodup) ∧
    (∀ (e : Engine) (p : String) (v : Scalar) (c : ℚ) (src : Option String)
      (f : Fact), get_fact e p = some f → pyEq f.value v = false →
      (f.certainty < c →
        ∃ e', set_fact e p v c src = some e' ∧
          get_fact e' p = some ⟨p, v, c, srcList src⟩ ∧
          (∀ q, q ≠ p → get_fact e' q = get_fact e q) ∧
          e'.evaluated_rules = e.evaluated_rules) ∧
      (¬ f.certainty < c → set_fact e p v c src = some e)) := by
  constructor
  · intro e p v c src e' hnd h
    unfold set_fact at h
    split at h
    · split at h
      · split at h
        · cases h
        · injection h with h
          subst h
          exact dictSet_keys_nodup _ _ _ hnd
      · split at h
        · injection h with h
          subst h
          exact dictSet_keys_nodup _ _ _ hnd
        · injection h with h
          subst h
          exact hnd
    · injection h with h
      subst h
      exact dictSet_keys_nodup _ _ _ hnd
  · intro e p v c src f hf hv
    unfold get_fact at hf
    have hv' : ¬ (pyEq f.value v = true) := by
      rw [hv]
      exact Bool.false_ne_true
    constructor
    · intro hlt
      refine ⟨Engine.mk (dictSet e.known_facts p ⟨p, v, c, srcList src⟩)
          e.evaluated_rules, ?_, ?_, ?_, rfl⟩
      · unfold set_fact
        rw [hf]
        dsimp only
        rw [if_neg hv', if_pos hlt]
      · exact dictGet_dictSet_self _ _ _
      · intro q hq
        exact dictGet_dictSet_ne _ _ _ _ hq
    · intro hnlt
      unfold set_fact
      rw [hf]
      dsimp only
      rw [if_neg hv', if_neg hnlt]

theorem set_fact_single_fact_per_parameter_witness :
    (get_fact engHalf "p" = some ⟨"p", Scalar.s "a", 1/2, []⟩) ∧
    (pyEq (Scalar.s "a") (Scalar.s "b") = false) ∧
    (¬ ((1 : ℚ)/2 < 1/2)) ∧
    set_fact engHalf "p" (Scalar.s "b") (1/2) none = some engHalf :=
  ⟨rfl, rfl, by norm_num,
    ((set_fact_single_fact_per_parameter.2 engHalf "p" (Scalar.s "b") (1/2) none
      ⟨"p", Scalar.s "a", 1/2, []⟩ rfl rfl).2 (by norm_num))⟩

/-- C4 counterexample: a known fact `p = "a"` with *negative* certainty
`-1/2` satisfies the condition `p is "a"` and hands the rule its negative
certainty — zero/negative-certainty facts are not filtered out. -/
theorem condition_satisfied_by_negative_certainty_cex :
    get_fact engNeg "p" = some ⟨"p", Scalar.s "a", -(1/2), []⟩ ∧
    ((-(1/2) : ℚ) ≤ 0) ∧
    evaluate_condition none engNeg ⟨"p", "is", Scalar.s "a"⟩ [] =
      some ((true, -(1/2)), engNeg) := by
  with_unfolding_all decide

/-- C4 (amended): with a fact stored for the condition's parameter,
`evaluate_condition` decides satisfaction *solely* by the operator test on
the fact's value — the fact's certainty (zero or negative included) plays
no role in whether the condition is satisfied and is returned unchanged as
the condition's certainty when it is. -/
theorem evaluate_condition_known_fact_spec (oracle : Oracle) (e : Engine)
    (cond : RuleCondition) (pd : PatientData) (f : Fact)
    (h : get_fact e cond.parameter = some f) :
    evaluate_condition oracle e cond pd =
      some ((evalOperator cond.operator f.value cond.value,
        if evalOperator cond.operator f.value cond.value then f.certainty else 0), e) := by
  unfold evaluate_condition finishCondition
  rw [h]
  cases hs : evalOperator cond.operator f.value cond.value <;> simp [hs]

theorem evaluate_condition_known_fact_spec_witness :
    (get_fact engNeg "p" = some ⟨"p", Scalar.s "a", -(1/2), []⟩) ∧
    evaluate_condition none engNeg ⟨"p", "is_not", Scalar.s "z"⟩ [] =
      some ((evalOperator "is_not" (Scalar.s "a") (Scalar.s "z"),
        if evalOperator "is_not" (Scalar.s "a") (Scalar.s "z")
          then (-(1/2) : ℚ) else 0), engNeg) :=
  ⟨rfl,
    evaluate_condition_known_fact_spec none engNeg ⟨"p", "is_not", Scalar.s "z"⟩ []
      ⟨"p", Scalar.s "a", -(1/2), []⟩ rfl⟩

/-- C9 counterexample: for a parameter supplied directly in the patient
data, `evaluate_condition` uses the value at certainty `1.0` but records
*nothing*: the resulting fact store is still empty — no Fact with
provenance `"user_input"` (or any provenance) is created.  (The string
`"user_input"` does not occur anywhere in the engine.) -/
theorem context_value_not_stored_cex :
    evaluate_condition none ⟨[], []⟩ ⟨"p", "is", Scalar.s "a"⟩ [("p", Scalar.s "a")] =
      some ((true, 1), (⟨[], []⟩ : Engine)) ∧
    get_fact (⟨[], []⟩ : Engine) "p" = none := by
  with_unfolding_all decide

/-- C9 (amended): for a parameter with no stored fact whose value is
supplied directly in the patient data, `evaluate_condition` uses that value
at certainty `1.0` and never consults the LLM callback (the result is the
same for *every* oracle, including `none`), but it does not write anything
to the fact store: the engine state is returned unchanged, so no Fact and
no `"user_input"` provenance is recorded. -/
theorem evaluate_condition_context_no_oracle (oracle : Oracle) (e : Engine)
    (cond : RuleCondition) (pd : PatientData) (v : Scalar)
    (hf : get_fact e cond.parameter = none)
    (hpd : pdGet pd cond.parameter = some v) :
    evaluate_condition oracle e cond pd =
      some ((evalOperator cond.operator v cond.value,
        if evalOperator cond.operator v cond.value then (1 : ℚ) else 0), e) := by
  unfold evaluate_condition finishCondition
  rw [hf, hpd]
  cases hs : evalOperator cond.operator v cond.value <;> simp [hs]

theorem evaluate_condition_context_no_oracle_witness :
    (get_fact (⟨[], []⟩ : Engine) "p" = none) ∧
    (pdGet [("p", Scalar.s "a")] "p" = some (Scalar.s "a")) ∧
    evaluate_condition (some (fun _ _ => (some (Scalar.s "zz"), 1)))
        ⟨[], []⟩ ⟨"p", "is", Scalar.s "a"⟩ [("p", Scalar.s "a")] =
      some ((evalOperator "is" (Scalar.s "a") (Scalar.s "a"),
        if evalOperator "is" (Scalar.s "a") (Scalar.s "a")
          then (1 : ℚ) else 0), ⟨[], []⟩) :=
  ⟨rfl, by with_unfolding_all decide,
    evaluate_condition_context_no_oracle (some (fun _ _ => (some (Scalar.s "zz"), 1)))
      ⟨[], []⟩ ⟨"p", "is", Scalar.s "a"⟩ [("p", Scalar.s "a")] (Scalar.s "a")
      rfl (by with_unfolding_all decide)⟩

/-- C6 counterexample: with a single `identity` fact of *negative*
certainty (no positive-certainty fact at all), the probability
distribution is not empty — the code falls back to a uniform distribution
over all candidate values, here `[("strep", 1)]`. -/
theorem diagnosis_nonpositive_nonempty_cex :
    organism_probabilities
        ⟨[("identity", ⟨"identity", Scalar.s "strep", -(1/2), []⟩)], []⟩ =
      [(Scalar.s "strep", 1)] ∧
    (∀ x ∈ collect_facts
        ⟨[("identity", ⟨"identity", Scalar.s "strep", -(1/2), []⟩)], []⟩ "identity",
      x.2 ≤ 0) := by
  with_unfolding_all decide

/-- C6 (amended): `_normalize_to_probs` keeps *every* candidate value of
the input facts for the goal parameter (certainties are clamped at `0`, so
non-positive facts appear with probability `0` when some clamped certainty
is positive, and share a uniform distribution when none is); whenever the
input is nonempty the returned probabilities sum to exactly `1`, and the
empty distribution occurs only for an empty input. -/
theorem normalize_to_probs_mass (d : List (Scalar × ℚ)) (hne : d ≠ []) :
    ((normalize_to_probs d).map Prod.fst = d.map Prod.fst) ∧
    ((normalize_to_probs d).map Prod.snd).sum = 1 := by
  have hemp : d.isEmpty = false := by
    cases d with
    | nil => exact absurd rfl hne
    | cons x xs => rfl
  have hlen : (d.length : ℚ) ≠ 0 := by
    have : d.length ≠ 0 := fun h0 => hne (List.length_eq_zero.mp h0)
    exact_mod_cast this
  unfold normalize_to_probs
  rw [hemp]
  dsimp only
  simp only [Bool.false_eq_true, if_false]
  by_cases hz : ((d.map (fun kv => (kv.1, max 0 kv.2))).map Prod.snd).sum = 0
  · have hpos : (d.map (fun kv => (kv.1, max 0 kv.2))).isEmpty = false := by
      cases d with
      | nil => exact absurd rfl hne
      | cons x xs => rfl
    rw [if_pos (Or.inr hz)]
    constructor
    · simp [List.map_map, Function.comp]
    · rw [List.map_map]
      have h1 : (Prod.snd ∘ fun kv : Scalar × ℚ => (kv.1, 1 / (d.length : ℚ))) =
          fun _ : Scalar × ℚ => 1 / (d.length : ℚ) := rfl
      rw [h1, List.map_const', List.sum_replicate, nsmul_eq_mul]
      field_simp
  · have hcond : ¬ ((d.map (fun kv => (kv.1, max 0 kv.2))).isEmpty = true ∨
        ((d.map (fun kv => (kv.1, max 0 kv.2))).map Prod.snd).sum = 0) := by
      rintro (habs | habs)
      · cases d with
        | nil => exact hne rfl
        | cons x xs => cases habs
      · exact hz habs
    rw [if_neg hcond]
    have hrw : (d.map (fun kv => (kv.1, max 0 kv.2))).map Prod.snd =
        d.map (fun kv => max 0 kv.2) := by
      simp [List.map_map, Function.comp]
    have hS : (d.map (fun kv => max 0 kv.2)).sum ≠ 0 := by
      intro h0
      exact hz (by rw [hrw, h0])
    constructor
    · simp [List.map_map, Function.comp]
    · have hstep : (((d.map (fun kv => (kv.1, max 0 kv.2))).map
          (fun kv => (kv.1,
            kv.2 / ((d.map (fun kv => (kv.1, max 0 kv.2))).map Prod.snd).sum))).map
          Prod.snd) =
        (d.map (fun kv => max 0 kv.2)).map
          (fun x => x / (d.map (fun kv => max 0 kv.2)).sum) := by
        simp [List.map_map, Function.comp, hrw]
      rw [hstep, list_sum_map_div]
      exact div_self hS

theorem normalize_to_probs_mass_witness :
    (([(Scalar.s "a", (1 : ℚ)/2), (Scalar.s "b", -(1/4))] : List (Scalar × ℚ)) ≠ []) ∧
    ((normalize_to_probs
        [(Scalar.s "a", (1 : ℚ)/2), (Scalar.s "b", -(1/4))]).map Prod.fst =
      ([(Scalar.s "a", (1 : ℚ)/2), (Scalar.s "b", -(1/4))] :
        List (Scalar × ℚ)).map Prod.fst) ∧
    ((normalize_to_probs
        [(Scalar.s "a", (1 : ℚ)/2), (Scalar.s "b", -(1/4))]).map Prod.snd).sum = 1 :=
  ⟨by simp,
    (normalize_to_probs_mass
      [(Scalar.s "a", (1 : ℚ)/2), (Scalar.s "b", -(1/4))] (by simp)).1,
    (normalize_to_probs_mass
      [(Scalar.s "a", (1 : ℚ)/2), (Scalar.s "b", -(1/4))] (by simp)).2⟩

end Mycin
